import Mathlib

/-!
Verification development for the Archy diagram assistant.

The repository's engineering core is the Mermaid-code normalizer
(cleanMermaidCode in src/services/geminiService.ts), the node-identity
resolver (the record lookup inside handleNodeClick in src/App.tsx), the
element-id extraction in src/components/DiagramRenderer.tsx, and the
pairing of diagram code with node metadata across the App.tsx handlers.
This file gives a shallow embedding of those parts over lists of
characters, modelling the JavaScript regular-expression pipeline
operation by operation, and proves or refutes the specified properties.

Modelling notes: JavaScript strings are modelled as Lean lists of
characters; String.prototype.toLowerCase is modelled by the ASCII
lowercasing Char.toLower (all inputs of interest are ASCII, and the
resolver afterwards keeps only ASCII alphanumerics); the line-level
regular expressions are applied by the source to lines produced by
splitting on the newline character, so they are embedded for lines free
of line-terminator characters, the only lines realistic input produces
(a trailing carriage return is removed by the initial trim).
-/

namespace Archy

/-! Character classes and basic utilities with JavaScript semantics. -/

/-- The JavaScript regular-expression whitespace class (the set matched by
a backslash-s atom and removed by String.prototype.trim). -/
def isJsWs (c : Char) : Bool :=
  c = ' ' || c = '\t' || c = '\n' || c = '\r' || c = '\x0b' || c = '\x0c' ||
  c.val = 0xa0 || c.val = 0x1680 ||
  (0x2000 ≤ c.val && c.val ≤ 0x200a) ||
  c.val = 0x2028 || c.val = 0x2029 || c.val = 0x202f ||
  c.val = 0x205f || c.val = 0x3000 || c.val = 0xfeff

/-- The JavaScript line terminators, the characters a regular-expression
dot never matches. -/
def isLineTerm (c : Char) : Bool :=
  c = '\n' || c = '\r' || c.val = 0x2028 || c.val = 0x2029

/-- Model of String.prototype.trim: drop JavaScript whitespace from both
ends. -/
def jsTrim (l : List Char) : List Char :=
  (l.dropWhile isJsWs).rdropWhile isJsWs

/-- Model of String.prototype.split with a one-character separator:
splitting never merges separators and the empty string yields one empty
piece. -/
def splitOnChar (sep : Char) : List Char → List (List Char)
  | [] => [[]]
  | c :: cs =>
    let r := splitOnChar sep cs
    if c = sep then [] :: r
    else
      match r with
      | h :: t => (c :: h) :: t
      | [] => [[c]]

/-- Model of Array.prototype.join with a newline separator. -/
def joinNL : List (List Char) → List Char
  | [] => []
  | [l] => l
  | l :: ls => l ++ '\n' :: joinNL ls

/-- Consume a literal sequence of characters from the front of a list,
returning the remainder on success. -/
def dropLit : List Char → List Char → Option (List Char)
  | [], l => some l
  | _ :: _, [] => none
  | c :: cs, x :: xs => if x = c then dropLit cs xs else none

/-- Whether a list starts with the given literal. -/
def startsWithList (p l : List Char) : Bool := (dropLit p l).isSome

/-! Line-level repair regexes of cleanMermaidCode
    (src/services/geminiService.ts lines 56 to 84), embedded for the
    newline-free lines they are applied to. -/

/-- All characters are JavaScript whitespace. -/
def allWs (l : List Char) : Bool := l.all isJsWs

/-- The optional inline edge label group: a pipe, one or more non-pipe
characters, a pipe; returns the remainder when the group matches. -/
def labelTail : List Char → Option (List Char)
  | '|' :: r =>
    let body := r.takeWhile (fun c => !(c = '|'))
    let rest := r.dropWhile (fun c => !(c = '|'))
    match rest with
    | '|' :: r2 => if body.isEmpty then none else some r2
    | _ => none
  | _ => none

/-- After an edge-operator core: an optional inline label, then only
whitespace up to the end of the line. -/
def arrowTailOk (l : List Char) : Bool :=
  match labelTail l with
  | some r => allWs r
  | none => allWs l

/-- The edge-operator alternatives of the dangling-arrow regex: two or
more dashes with an optional closing angle, a dot with dashes and a
closing angle, or two or more equals signs with a closing angle; each
followed by arrowTailOk. -/
def arrowCore (l : List Char) : Bool :=
  match l with
  | '-' :: _ =>
    let ds := l.takeWhile (fun c => c = '-')
    let r := l.dropWhile (fun c => c = '-')
    if ds.length < 2 then false
    else
      match r with
      | '>' :: r2 => arrowTailOk r2
      | _ => arrowTailOk r
  | '.' :: r =>
    let ds := r.takeWhile (fun c => c = '-')
    let r2 := r.dropWhile (fun c => c = '-')
    if ds.isEmpty then false
    else
      match r2 with
      | '>' :: r3 => arrowTailOk r3
      | _ => false
  | '=' :: _ =>
    let es := l.takeWhile (fun c => c = '=')
    let r := l.dropWhile (fun c => c = '=')
    if es.length < 2 then false
    else
      match r with
      | '>' :: r2 => arrowTailOk r2
      | _ => false
  | _ => false

/-- The full dangling-arrow suffix pattern: optional whitespace, an edge
operator, an optional label, trailing whitespace, end of line. -/
def arrowSuffix (l : List Char) : Bool := arrowCore (l.dropWhile isJsWs)

/-- Position of the leftmost suffix satisfying a predicate, matching the
scan order of a JavaScript end-anchored regular expression. -/
def firstSuffixPos (p : List Char → Bool) : List Char → Option Nat
  | [] => if p [] then some 0 else none
  | c :: t =>
    if p (c :: t) then some 0 else (firstSuffixPos p t).map (· + 1)

/-- Replace the leftmost end-anchored match by keeping the first
matchStart plus keep characters; the identity when there is no match. -/
def stripAfter (p : List Char → Bool) (keep : Nat) (l : List Char) :
    List Char :=
  match firstSuffixPos p l with
  | some i => l.take (i + keep)
  | none => l

/-- Stage one of the line repairs: remove a dangling edge operator (with
optional inline label) at the end of the line. -/
def r1 (l : List Char) : List Char := stripAfter arrowSuffix 0 l

/-- A closing shape delimiter or arrow head, the capture class of the
trailing-annotation regexes. -/
def isCloser (c : Char) : Bool := c = ']' || c = ')' || c = '}' || c = '>'

/-- Match of the colon-annotation regex at the head of the list: a
closer, optional whitespace, a colon, at least one whitespace character,
and no semicolon up to the end of the line. -/
def r2Match : List Char → Bool
  | c :: r =>
    isCloser c &&
      (match r.dropWhile isJsWs with
       | ':' :: r2 =>
         (match r2 with
          | w :: _ => isJsWs w && !(r2.contains ';')
          | [] => false)
       | _ => false)
  | [] => false

/-- Stage two: strip a natural-language annotation introduced by a colon
after a closing delimiter, keeping the delimiter. -/
def r2 (l : List Char) : List Char := stripAfter r2Match 1 l

/-- Match of the dash-annotation regex at the head of the list: a closer,
whitespace, a dash, whitespace, with no closing angle anywhere after the
dash (the negative lookahead of the source regex). -/
def r3Match : List Char → Bool
  | c :: r =>
    isCloser c &&
      (let w := r.takeWhile isJsWs
       let r1 := r.dropWhile isJsWs
       !w.isEmpty &&
         (match r1 with
          | '-' :: r2 =>
            (match r2 with
             | x :: _ => isJsWs x && !(r2.contains '>')
             | [] => false)
          | _ => false))
  | [] => false

/-- Stage three: strip a dash-introduced annotation after a closing
delimiter, keeping the delimiter. -/
def r3 (l : List Char) : List Char := stripAfter r3Match 1 l

/-- Identifier characters of the Mermaid node-id class: ASCII letters,
digits, underscore and dash. -/
def isIdChar (c : Char) : Bool :=
  ('a' ≤ c && c ≤ 'z') || ('A' ≤ c && c ≤ 'Z') ||
  ('0' ≤ c && c ≤ '9') || c = '_' || c = '-'

/-- Characters that block the class-assignment annotation regex right
after its whitespace (the negative lookahead character class). -/
def forbiddenAfterClass (c : Char) : Bool :=
  c = '-' || c = '=' || c = '.' || c = '>'

/-- Match of the class-annotation regex at the head of the list: a
triple colon, a class name, whitespace, then a character other than the
lookahead class (with two or more whitespace characters the regex can
retreat so the lookahead lands on whitespace and always passes); returns
the number of characters to keep. -/
def r4f : List Char → Option Nat
  | ':' :: ':' :: ':' :: r =>
    let cls := r.takeWhile isIdChar
    let r1 := r.dropWhile isIdChar
    if cls.isEmpty then none
    else
      let w := r1.takeWhile isJsWs
      let r2 := r1.dropWhile isJsWs
      if w.isEmpty then none
      else if 2 ≤ w.length then some (3 + cls.length)
      else
        match r2 with
        | [] => some (3 + cls.length)
        | x :: _ =>
          if forbiddenAfterClass x then none else some (3 + cls.length)
  | _ => none

/-- Leftmost position at which a partial-match function succeeds, with
its kept length. -/
def firstSome (f : List Char → Option Nat) : List Char → Option (Nat × Nat)
  | [] => (f []).map (fun k => (0, k))
  | c :: t =>
    match f (c :: t) with
    | some k => some (0, k)
    | none => (firstSome f t).map (fun p => (p.1 + 1, p.2))

/-- Stage four: strip trailing text after a class assignment, keeping
the triple colon and the class name. -/
def r4 (l : List Char) : List Char :=
  match firstSome r4f l with
  | some (i, k) => l.take (i + k)
  | none => l

/-- Match of the trailing-colon regex at the head of the list: a colon
followed only by whitespace. -/
def r5Match : List Char → Bool
  | ':' :: r => allWs r
  | _ => false

/-- Stage five: remove a trailing annotation colon. -/
def r5 (l : List Char) : List Char := stripAfter r5Match 0 l

/-- Whether the first two characters are both percent signs, the
comment-line test of the source. -/
def startsWith2 (a b : Char) : List Char → Bool
  | x :: y :: _ => x = a && y = b
  | _ => false

/-- The per-line mapping of cleanMermaidCode: trim, keep comment lines
untouched, otherwise apply the five repair regexes in order. -/
def mapLine (line : List Char) : List Char :=
  let processed := jsTrim line
  if startsWith2 '%' '%' processed then processed
  else r5 (r4 (r3 (r2 (r1 processed))))

/-- The mapped and filtered lines of cleanMermaidCode: drop lines that
became empty and lines that are now only an edge operator. -/
def keptLines (code : List Char) : List (List Char) :=
  (((splitOnChar '\n' code).map mapLine).filter
      (fun l => !l.isEmpty)).filter
    (fun l => !(arrowSuffix (jsTrim l)))

/-! Direction canonicalization (src/services/geminiService.ts lines 90
    to 96): the global replaces of graph or flowchart direction
    declarations by flowchart LR, and the prepend when missing. -/

/-- The literal keyword graph. -/
def litGraph : List Char := ['g', 'r', 'a', 'p', 'h']

/-- The literal keyword flowchart. -/
def litFlowchart : List Char :=
  ['f', 'l', 'o', 'w', 'c', 'h', 'a', 'r', 't']

/-- The canonical direction declaration flowchart LR. -/
def flowLR : List Char :=
  ['f', 'l', 'o', 'w', 'c', 'h', 'a', 'r', 't', ' ', 'L', 'R']

/-- Whether the list starts with one of the two-letter direction codes
LR, RL, BT or TD. -/
def dirCode : List Char → Bool
  | a :: b :: _ =>
    (a = 'L' && b = 'R') || (a = 'R' && b = 'L') ||
    (a = 'B' && b = 'T') || (a = 'T' && b = 'D')
  | _ => false

/-- Match of a direction declaration at the head of the list: the
keyword, one or more whitespace characters, a direction code; returns
the remainder after the code. -/
def dirMatch (kw : List Char) (l : List Char) : Option (List Char) :=
  match dropLit kw l with
  | none => none
  | some r =>
    let w := r.takeWhile isJsWs
    let r1 := r.dropWhile isJsWs
    if w.isEmpty then none
    else if dirCode r1 then some (r1.drop 2) else none

/-- Fueled left-to-right global replace of direction declarations by
flowchart LR, continuing after each replacement. -/
def dirGo (kw : List Char) : Nat → List Char → List Char
  | 0, l => l
  | _ + 1, [] => []
  | fuel + 1, c :: cs =>
    match dirMatch kw (c :: cs) with
    | some rest => flowLR ++ dirGo kw fuel rest
    | none => c :: dirGo kw fuel cs

/-- Global replace of direction declarations led by the given keyword. -/
def dirReplace (kw : List Char) (l : List Char) : List Char :=
  dirGo kw (l.length + 1) l

/-- The anchored strip of a leading flowchart declaration used inside
the prepend branch, with its trailing greedy whitespace. -/
def stripLeadFlowDecl (l : List Char) : List Char :=
  match dirMatch litFlowchart l with
  | some rest => rest.dropWhile isJsWs
  | none => l

/-- Ensure the cleaned code starts with flowchart LR, prepending the
declaration when the trimmed code does not already start with it. -/
def ensureFlowLR (l : List Char) : List Char :=
  if startsWithList flowLR (jsTrim l) then l
  else flowLR ++ '\n' :: stripLeadFlowDecl l

/-! Label quoting (src/services/geminiService.ts lines 98 to 117): the
    five global shape rewrites and the shared label normalizer. -/

/-- The label normalizer: trim, strip one pair of surrounding double
quotes, trim again, replace internal double quotes by apostrophes, and
wrap in double quotes. -/
def normalizeLabel (label : List Char) : List Char :=
  let t := jsTrim label
  let t2 :=
    if 2 ≤ t.length && t.head? = some '"' && t.getLast? = some '"' &&
        !(((t.drop 1).dropLast).any isLineTerm)
    then (t.drop 1).dropLast else t
  let t3 := jsTrim t2
  let t4 := t3.map (fun c => if c = '"' then '\'' else c)
  '"' :: t4 ++ ['"']

/-- Close attempt of a lazy label scan: greedy whitespace then the
closing delimiter; returns the raw consumed text and the remainder. -/
def closeRaw (closer : List Char) (l : List Char) :
    Option (List Char × List Char) :=
  match dropLit closer (l.dropWhile isJsWs) with
  | some rest => some (l.takeWhile isJsWs ++ closer, rest)
  | none => none

/-- Lazy scan for the shortest label content followed by optional
whitespace and the closing delimiter; content characters satisfying bad
abort the match, mirroring the character classes of the source regexes.
Returns the captured content, the raw consumed text including the
closer, and the remainder. -/
def scanContent (closer : List Char) (bad : Char → Bool) :
    List Char → Option (List Char × List Char × List Char)
  | [] =>
    match closeRaw closer [] with
    | some (raw, rest) => some ([], raw, rest)
    | none => none
  | x :: xs =>
    match closeRaw closer (x :: xs) with
    | some (raw, rest) => some ([], raw, rest)
    | none =>
      if bad x then none
      else
        (scanContent closer bad xs).map
          (fun p => (x :: p.1, x :: p.2.1, p.2.2))

/-- Match of a two-character-delimited shape at the head of the list:
the opener pair, greedy whitespace, then the lazy content scan with the
dot class (anything but a newline). Returns the content and the
remainder after the closer. -/
def pairMatch (o1 o2 : Char) (closer : List Char) (l : List Char) :
    Option (List Char × List Char) :=
  match l with
  | a :: rest1 =>
    if a = o1 then
      match rest1 with
      | b :: rest2 =>
        if b = o2 then
          match scanContent closer isLineTerm
              (rest2.dropWhile isJsWs) with
          | some (content, _, rest) => some (content, rest)
          | none => none
        else none
      | [] => none
    else none
  | [] => none

/-- Fueled global rewrite of one two-character-delimited shape: each
match is replaced by the opener, the normalized label and the closer. -/
def pairGo (o1 o2 : Char) (closer : List Char) :
    Nat → List Char → List Char
  | 0, l => l
  | _ + 1, [] => []
  | fuel + 1, c :: cs =>
    match pairMatch o1 o2 closer (c :: cs) with
    | some (content, rest) =>
      o1 :: o2 :: (normalizeLabel content ++ closer) ++
        pairGo o1 o2 closer fuel rest
    | none => c :: pairGo o1 o2 closer fuel cs

/-- The parallelogram rewrite for slash-in-bracket shapes. -/
def slashPass (l : List Char) : List Char :=
  pairGo '[' '/' ['/', ']'] (l.length + 1) l

/-- The stadium rewrite for bracket-in-parenthesis shapes. -/
def stadiumPass (l : List Char) : List Char :=
  pairGo '(' '[' [']', ')'] (l.length + 1) l

/-- The cylinder rewrite for parenthesis-in-bracket shapes. -/
def cylinderPass (l : List Char) : List Char :=
  pairGo '[' '(' [')', ']'] (l.length + 1) l

/-- The hexagon rewrite for double-brace shapes. -/
def hexagonPass (l : List Char) : List Char :=
  pairGo '{' '{' ['}', '}'] (l.length + 1) l

/-- Content characters that abort the basic square-bracket label match:
a double quote, a closing bracket handled by the closer, or a newline. -/
def sqBad (c : Char) : Bool := c = '"' || c = ']' || c = '\n'

/-- ASCII lowercasing of a word, the model of toLowerCase on the
identifier in front of a bracket. -/
def toLowerList (l : List Char) : List Char := l.map Char.toLower

/-- The reserved keywords excluded from square-bracket label
rewriting. -/
def sqKeywords : List (List Char) :=
  ["subgraph".data, "class".data, "click".data, "style".data,
   "classdef".data, "direction".data]

/-- Match of a basic square-bracket node at the head of the list: a
nonempty identifier run, an opening bracket, greedy whitespace, then the
lazy content scan with the square-bracket character class. Returns the
identifier, the captured content, the raw text after the bracket (for
the keyword branch, which keeps the match unchanged), and the
remainder. -/
def sqMatch (l : List Char) :
    Option (List Char × List Char × List Char × List Char) :=
  let idr := l.takeWhile isIdChar
  let r := l.dropWhile isIdChar
  if idr.isEmpty then none
  else
    match r with
    | '[' :: r2 =>
      match scanContent [']'] sqBad (r2.dropWhile isJsWs) with
      | some (content, raw, rest) =>
        some (idr, content, r2.takeWhile isJsWs ++ raw, rest)
      | none => none
    | _ => none

/-- Fueled global rewrite of basic square-bracket nodes: a reserved
keyword keeps the matched text unchanged, any other identifier gets its
label normalized. -/
def sqGo : Nat → List Char → List Char
  | 0, l => l
  | _ + 1, [] => []
  | fuel + 1, c :: cs =>
    match sqMatch (c :: cs) with
    | some (idr, content, kwTail, rest) =>
      (if sqKeywords.contains (toLowerList idr)
       then idr ++ '[' :: kwTail
       else idr ++ '[' :: (normalizeLabel content ++ [']'])) ++
        sqGo fuel rest
    | none => c :: sqGo fuel cs

/-- The basic square-bracket rewrite with keyword exclusion. -/
def sqPass (l : List Char) : List Char := sqGo (l.length + 1) l

/-- The full normalizer cleanMermaidCode of
src/services/geminiService.ts (lines 53 to 120): per-line repairs and
filters, direction canonicalization, the flowchart LR prepend, and the
five shape-label rewrites, in source order. -/
def cleanCore (code : List Char) : List Char :=
  let cleaned := joinNL (keptLines code)
  let c2 := dirReplace litFlowchart (dirReplace litGraph cleaned)
  let c3 := ensureFlowLR c2
  sqPass (hexagonPass (cylinderPass (stadiumPass (slashPass c3))))

/-- String-level wrapper of the normalizer. -/
def cleanMermaidCode (code : String) : String := ⟨cleanCore code.data⟩

/-! The node-identity resolver (src/App.tsx, handleNodeClick, lines 128
    to 150) and its metadata record type (src/types.ts). -/

/-- A metadata record produced by the model alongside the diagram
(NodeDetail in src/types.ts). -/
structure NodeDetail where
  id : String
  label : String
  description : String
  technologies : List String
  relatedComponents : List String
deriving DecidableEq

/-- Model of String.prototype.includes: whether the first list occurs
contiguously inside the second. -/
def infixB (x : List Char) : List Char → Bool
  | [] => x.isEmpty
  | c :: cs => x.isPrefixOf (c :: cs) || infixB x cs

/-- The normalizer clean of handleNodeClick: lowercase, trim, remove
quote characters, keep only ASCII lowercase letters and digits. -/
def cleanStr (s : String) : List Char :=
  ((jsTrim (s.data.map Char.toLower)).filter
      (fun c => !(c = '\'' || c = '"'))).filter
    (fun c => ('a' ≤ c && c ≤ 'z') || ('0' ≤ c && c ≤ '9'))

/-- The match predicate of handleNodeClick: normalized id equality,
normalized label equality, or a one-sided inclusion whose included label
is longer than three characters. -/
def nodeMatches (targetId targetLabel : List Char) (d : NodeDetail) :
    Bool :=
  let dId := cleanStr d.id
  let dLabel := cleanStr d.label
  dId == targetId || dLabel == targetLabel ||
  (decide (3 < dLabel.length) && infixB dLabel targetLabel) ||
  (decide (3 < targetLabel.length) && infixB targetLabel dLabel)

/-- The resolution of a clicked element against the active record list:
the first record, in insertion order, satisfying the match predicate. -/
def resolveNode (nodeId label : String) (records : List NodeDetail) :
    Option NodeDetail :=
  records.find? (nodeMatches (cleanStr nodeId) (cleanStr label))

/-- Normalization as the specification words it: lower-case, trim, and
remove all non-alphanumeric characters (which strips quote characters
with the rest). -/
def specClean (s : String) : List Char :=
  (jsTrim (s.data.map Char.toLower)).filter
    (fun c => ('a' ≤ c && c ≤ 'z') || ('0' ≤ c && c ≤ '9'))

/-- Predicate written from the specification's words: normalized id
equality, normalized label equality, or one normalized label a substring
of the other with the shorter of the two longer than three
characters. -/
def specMatches (nodeId label : String) (d : NodeDetail) : Bool :=
  let tId := specClean nodeId
  let tLabel := specClean label
  let dId := specClean d.id
  let dLabel := specClean d.label
  dId == tId || dLabel == tLabel ||
  ((infixB dLabel tLabel || infixB tLabel dLabel) &&
    decide (3 < min dLabel.length tLabel.length))

/-- The record of the C7 regression scenario. -/
def c7record : NodeDetail :=
  { id := "db_users", label := "User Database", description := ""
    technologies := [], relatedComponents := [] }

/-! Element-id extraction (src/components/DiagramRenderer.tsx, the click
    handler at lines 239 to 248). -/

/-- The anchored replace removing a leading flowchart dash prefix from
the clicked SVG group id. -/
def jsStripFlowGroup (s : List Char) : List Char :=
  match dropLit "flowchart-".data s with
  | some r => r
  | none => s

/-- The element id handed to resolution: strip the flowchart prefix,
split on dashes, keep the first piece. -/
def extractNodeId (fullId : String) : String :=
  ⟨(splitOnChar '-' (jsStripFlowGroup fullId.data)).headD []⟩

/-- Extraction as the specification describes it: remove a leading
flowchart dash prefix, then keep the longest dash-free front segment. -/
def specNodeId (fullId : String) : String :=
  let stripped :=
    if "flowchart-".data.isPrefixOf fullId.data
    then fullId.data.drop 10 else fullId.data
  ⟨stripped.takeWhile (fun c => !(c = '-'))⟩

/-! The orchestration state of src/App.tsx, modelling the pairing of the
    rendered diagram code with the node-detail list across
    handleSendMessage (lines 32 to 119), handleVersionSelect (lines 121
    to 126) and the onViewDiagram callback (lines 161 to 165). -/

/-- The sender of a chat message (src/types.ts). -/
inductive Sender where
  | user
  | ai
deriving DecidableEq

/-- A chat message, restricted to the fields the pairing argument
reads. -/
structure Msg where
  sender : Sender
  text : String
  diagramCode : Option String
  nodeDetails : Option (List NodeDetail)
  isError : Bool
deriving DecidableEq

/-- A history entry pairing one diagram source with its node-detail list
(DiagramVersion in src/types.ts). -/
structure DiagramVersion where
  code : String
  nodeDetails : List NodeDetail
  prompt : String
deriving DecidableEq

/-- The relevant React state of the App component, together with a ghost
log of every generation response received, used to state that the active
pair was produced together by one response. -/
structure AppState where
  messages : List Msg
  currentDiagramCode : String
  currentNodeDetails : List NodeDetail
  diagramVersions : List DiagramVersion
  gens : List (String × List NodeDetail)

/-- The initial state of the component. -/
def initState : AppState :=
  { messages := []
    currentDiagramCode := ""
    currentNodeDetails := []
    diagramVersions := []
    gens := [] }

/-- The state after a successful generation in handleSendMessage: the
user and status messages (no diagram attached) and the AI message are
appended, and when the returned diagram code is nonempty the current
pair and the version history are updated together. -/
def applyGeneration (s : AppState) (pre : List Msg) (expl mermaid : String)
    (details : List NodeDetail) (prompt : String) : AppState :=
  let aiMsg : Msg :=
    { sender := Sender.ai, text := expl, diagramCode := some mermaid
      nodeDetails := some details, isError := false }
  { messages := s.messages ++ pre ++ [aiMsg]
    currentDiagramCode :=
      if mermaid = "" then s.currentDiagramCode else mermaid
    currentNodeDetails :=
      if mermaid = "" then s.currentNodeDetails else details
    diagramVersions :=
      if mermaid = "" then s.diagramVersions
      else s.diagramVersions ++ [⟨mermaid, details, prompt⟩]
    gens := s.gens ++ [(mermaid, details)] }

/-- The state after handleVersionSelect on a history entry. -/
def applyVersionSelect (s : AppState) (v : DiagramVersion) : AppState :=
  { s with
    currentDiagramCode := v.code
    currentNodeDetails := v.nodeDetails }

/-- The state after the onViewDiagram callback with a past message's
diagram code: the code is installed, and the detail list of the first
message carrying that code is installed when present. -/
def applyViewDiagram (s : AppState) (c : String) : AppState :=
  { s with
    currentDiagramCode := c
    currentNodeDetails :=
      match s.messages.find? (fun m => m.diagramCode == some c) with
      | some m =>
        match m.nodeDetails with
        | some d => d
        | none => s.currentNodeDetails
      | none => s.currentNodeDetails }

/-- The reachable states of the App component: from the initial state,
by successful generations, failed sends (which only append messages
without diagrams), history selections of an existing version, and
view-diagram actions on an existing message that carries a diagram. -/
inductive Reachable : AppState → Prop where
  | init : Reachable initState
  | generate {s} (pre : List Msg) (expl mermaid : String)
      (details : List NodeDetail) (prompt : String)
      (hpre : ∀ m ∈ pre, m.diagramCode = none) :
      Reachable s → Reachable (applyGeneration s pre expl mermaid details prompt)
  | sendFailed {s} (pre : List Msg)
      (hpre : ∀ m ∈ pre, m.diagramCode = none) :
      Reachable s → Reachable { s with messages := s.messages ++ pre }
  | versionSelect {s} (v : DiagramVersion)
      (hv : v ∈ s.diagramVersions) :
      Reachable s → Reachable (applyVersionSelect s v)
  | viewDiagram {s} (m : Msg) (c : String)
      (hm : m ∈ s.messages) (hc : m.diagramCode = some c) :
      Reachable s → Reachable (applyViewDiagram s c)

/-- The pairing property of the specification: the active node-detail
list is one generated in the same response as the active diagram code
(or the component is still in its initial empty state). -/
def pairedConsistent (s : AppState) : Prop :=
  (s.currentDiagramCode = "" ∧ s.currentNodeDetails = []) ∨
  (s.currentDiagramCode, s.currentNodeDetails) ∈ s.gens

/-- The inductive strengthening: the active pair, every version history
entry, and every message carrying a diagram all record pairs logged by
one generation response. -/
def stateInv (s : AppState) : Prop :=
  pairedConsistent s ∧
  (∀ v ∈ s.diagramVersions, (v.code, v.nodeDetails) ∈ s.gens) ∧
  (∀ m ∈ s.messages, ∀ c, m.diagramCode = some c →
    ∃ d, m.nodeDetails = some d ∧ (c, d) ∈ s.gens)

/-! Theorems for the specified claims. -/

/-- C2 counterexample: normalization is not idempotent. On the input
consisting of the single line A arrow arrow, the first application
leaves a dangling arrow that the second application strips, so applying
the normalizer to its own output changes it again. -/
theorem C2_counterexample :
    cleanMermaidCode (cleanMermaidCode "A --> -->") ≠
      cleanMermaidCode "A --> -->" := by decide

/-- C2 amended: normalization is not idempotent; re-application is a
no-op only instance by instance (witnessed at the canonical graph TD
input with one well-formed edge), because the non-global end-anchored
strips fire once per pass: a second application removes the last of
several stacked trailing edge operators, and likewise a trailing colon
uncovered by stripping the colon behind it. -/
theorem C2_amended_stability :
    cleanMermaidCode (cleanMermaidCode "graph TD\nA --> B") =
        cleanMermaidCode "graph TD\nA --> B" ∧
      cleanMermaidCode "A --> -->" = "flowchart LR\nA -->" ∧
      cleanMermaidCode (cleanMermaidCode "A --> -->") =
        "flowchart LR\nA" ∧
      cleanMermaidCode "A::" = "flowchart LR\nA:" ∧
      cleanMermaidCode (cleanMermaidCode "A::") =
        "flowchart LR\nA" := by decide

/-- C3 counterexample: an input holding two direction declarations
normalizes to an output holding two direction declarations, not exactly
one; duplicates are rewritten in place, never merged. -/
theorem C3_counterexample :
    cleanMermaidCode "graph TD\ngraph TD" =
        "flowchart LR\nflowchart LR" ∧
      (splitOnChar '\n'
          (cleanMermaidCode "graph TD\ngraph TD").data).countP
        (fun l => l == flowLR) = 2 := by decide

/-- C4 counterexample: the normalizer does not truncate a line at an
inline comment marker. The concrete line of the claim keeps its inline
commentary verbatim instead of being cut back to the edge statement. -/
theorem C4_counterexample :
    cleanMermaidCode "A --> B %% triggers on login" =
        "flowchart LR\nA --> B %% triggers on login" ∧
      cleanMermaidCode "A --> B %% triggers on login" ≠
        "flowchart LR\nA --> B" := by decide

/-- C4 amended: a line whose trimmed form starts with the comment marker
passes through the per-line repairs untouched, while a comment marker
appearing later in a line is ignored rather than truncated at, so the
concrete line keeps its inline commentary. -/
theorem C4_amended_comments :
    (∀ line : List Char, startsWith2 '%' '%' (jsTrim line) = true →
        mapLine line = jsTrim line) ∧
      cleanMermaidCode "A --> B %% triggers on login" =
        "flowchart LR\nA --> B %% triggers on login" := by
  constructor
  · intro line h
    unfold mapLine
    rw [if_pos h]
  · decide

/-- C4 witness: the amended theorem applied to a concrete pure-comment
line. -/
theorem C4_amended_witness :
    mapLine "%% note".data = jsTrim "%% note".data :=
  C4_amended_comments.1 "%% note".data (by decide)

/-- C5 counterexample: the output for the stacked-arrow input has a line
that still ends with a dangling edge operator, because only one trailing
operator is stripped per line. -/
theorem C5_counterexample :
    splitOnChar '\n' (cleanMermaidCode "A --> -->").data =
        ["flowchart LR".data, "A -->".data] ∧
      "-->".data.isSuffixOf "A -->".data = true := by decide

/-- C5 amended: one trailing dangling edge operator is stripped per
line, and a line consisting solely of an edge operator is removed; but
with several stacked trailing operators only the last is stripped, so a
dangling operator can survive one pass. -/
theorem C5_amended_single_strip :
    cleanMermaidCode "A --> B -->" = "flowchart LR\nA --> B" ∧
      cleanMermaidCode "-->" = "flowchart LR\n" ∧
        cleanMermaidCode "A --> -->" = "flowchart LR\nA -->" := by decide

/-- C6 counterexample: a plain-box label containing a double quote is
not rewritten at all: the output keeps the occurrence with its label
segment unwrapped and with its internal quote intact. -/
theorem C6_counterexample :
    cleanMermaidCode "A[say \"hi\"]" = "flowchart LR\nA[say \"hi\"]" ∧
      startsWithList ['"'] "say \"hi\"".data = false := by decide

/-- C6 amended: every label the normalizer rewrites comes out wrapped in
canonical double quotes with no internal double quote (universally over
labels), as the shape rewrites show form by form; internal double quotes
of the two-delimiter shapes are replaced by apostrophes, already quoted
labels stay stable, and a bracket preceded by a reserved keyword is
excluded; but a plain-box label containing a double quote is not matched
and is left unrewritten. -/
theorem C6_amended_quoting :
    (∀ label : List Char, ∃ mid, normalizeLabel label = '"' :: mid ++ ['"'] ∧
        mid.all (fun c => !(c = '"')) = true) ∧
      cleanMermaidCode "A[Start]" = "flowchart LR\nA[\"Start\"]" ∧
      cleanMermaidCode "db[(Users)]" = "flowchart LR\ndb[(\"Users\")]" ∧
      cleanMermaidCode "u([Name])" = "flowchart LR\nu([\"Name\"])" ∧
      cleanMermaidCode "p[/Input/]" = "flowchart LR\np[/\"Input\"/]" ∧
      cleanMermaidCode "q\x7b\x7bsay \"hi\"\x7d\x7d" =
        "flowchart LR\nq\x7b\x7b\"say 'hi'\"\x7d\x7d" ∧
      cleanMermaidCode "subgraph[Services]" =
        "flowchart LR\nsubgraph[Services]" ∧
      cleanMermaidCode "A[\"Done\"]" = "flowchart LR\nA[\"Done\"]" ∧
      cleanMermaidCode "A[say \"hi\"]" =
        "flowchart LR\nA[say \"hi\"]" := by
  constructor
  · intro label
    refine ⟨((jsTrim (if 2 ≤ (jsTrim label).length &&
        (jsTrim label).head? = some '"' &&
        (jsTrim label).getLast? = some '"' &&
        !((((jsTrim label).drop 1).dropLast).any isLineTerm)
      then ((jsTrim label).drop 1).dropLast else jsTrim label)).map
        (fun c => if c = '"' then '\'' else c)), rfl, ?_⟩
    rw [List.all_eq_true]
    intro c hc
    obtain ⟨x, _, rfl⟩ := List.mem_map.mp hc
    by_cases h : x = '"' <;> simp [h]
  · decide

/-- C7 counterexample: the regression pair of the specification does not
resolve: the clicked element does not return the database record. -/
theorem C7_counterexample :
    resolveNode "flowchart-userdb-7" "User DB" [c7record] ≠
      some c7record := by decide

/-- C7 amended: resolution returns no record for this query, because the
normalized labels are userdb and userdatabase, neither of which occurs
inside the other, and neither the ids nor the labels agree. -/
theorem C7_amended_no_match :
    resolveNode "flowchart-userdb-7" "User DB" [c7record] = none ∧
      cleanStr "User DB" = "userdb".data ∧
      cleanStr "User Database" = "userdatabase".data ∧
      infixB "userdb".data "userdatabase".data = false ∧
      infixB "userdatabase".data "userdb".data = false := by decide

lemma infixB_iff (x y : List Char) : infixB x y = true ↔ x <:+: y := by
  induction y with
  | nil =>
    simp only [infixB, List.isEmpty_iff]
    constructor
    · rintro rfl; exact List.infix_refl []
    · intro h; exact List.eq_nil_of_infix_nil h
  | cons c cs ih =>
    simp [infixB, List.isPrefixOf_iff_prefix, List.infix_cons_iff, ih]

lemma inclusion_clause_eq (x y : List Char) :
    ((decide (3 < x.length) && infixB x y) ||
      (decide (3 < y.length) && infixB y x)) =
    ((infixB x y || infixB y x) && decide (3 < min x.length y.length)) := by
  cases h1 : infixB x y with
  | true =>
    have hle : x.length ≤ y.length :=
      List.IsInfix.length_le ((infixB_iff x y).mp h1)
    cases h2 : infixB y x with
    | true =>
      have hle2 : y.length ≤ x.length :=
        List.IsInfix.length_le ((infixB_iff y x).mp h2)
      have hmin : min x.length y.length = x.length := Nat.min_eq_left hle
      have hxy : y.length = x.length := Nat.le_antisymm hle2 hle
      simp [hmin, hxy]
    | false =>
      have hmin : min x.length y.length = x.length := Nat.min_eq_left hle
      simp [hmin]
  | false =>
    cases h2 : infixB y x with
    | true =>
      have hle : y.length ≤ x.length :=
        List.IsInfix.length_le ((infixB_iff y x).mp h2)
      have hmin : min x.length y.length = y.length := Nat.min_eq_right hle
      simp [hmin]
    | false => simp

lemma specClean_eq_cleanStr (s : String) : specClean s = cleanStr s := by
  unfold specClean cleanStr
  rw [List.filter_filter]
  congr 1
  funext c
  by_cases h1 : c = '\''
  · subst h1; decide
  · by_cases h2 : c = '"'
    · subst h2; decide
    · simp [h1, h2]

lemma nodeMatches_eq_spec (n l : String) (d : NodeDetail) :
    nodeMatches (cleanStr n) (cleanStr l) d = specMatches n l d := by
  simp only [nodeMatches, specMatches, specClean_eq_cleanStr]
  rw [Bool.or_assoc, Bool.or_assoc, inclusion_clause_eq, ← Bool.or_assoc]

/-- C1: node-identity resolution is exactly the first record, in
insertion order, whose spec-normalized id equals the normalized query
id, or whose normalized label equals the normalized query label, or
such that one normalized label is a substring of the other with the
shorter of them longer than three characters; when no record qualifies,
none is returned. -/
theorem C1_resolver_refines_spec (nodeId label : String)
    (records : List NodeDetail) :
    resolveNode nodeId label records =
      records.find? (specMatches nodeId label) := by
  have h : nodeMatches (cleanStr nodeId) (cleanStr label) =
      specMatches nodeId label :=
    funext (nodeMatches_eq_spec nodeId label)
  rw [resolveNode, h]

lemma splitOnChar_ne_nil (sep : Char) (l : List Char) :
    splitOnChar sep l ≠ [] := by
  induction l with
  | nil => simp [splitOnChar]
  | cons c cs ih =>
    simp only [splitOnChar]
    split
    · simp
    · split <;> simp

lemma splitOnChar_headD (sep : Char) (l : List Char) :
    (splitOnChar sep l).headD [] = l.takeWhile (fun c => !(c = sep)) := by
  induction l with
  | nil => simp [splitOnChar]
  | cons c cs ih =>
    by_cases hc : c = sep
    · simp [splitOnChar, List.takeWhile_cons, hc]
    · rcases hr : splitOnChar sep cs with _ | ⟨h, t⟩
      · exact absurd hr (splitOnChar_ne_nil sep cs)
      · rw [hr] at ih
        simp [splitOnChar, List.takeWhile_cons, hc, hr, ← ih]

lemma dropLit_eq (p l : List Char) :
    dropLit p l = if p.isPrefixOf l then some (l.drop p.length) else none := by
  induction p generalizing l with
  | nil => simp [dropLit, List.isPrefixOf]
  | cons c cs ih =>
    cases l with
    | nil => simp [dropLit, List.isPrefixOf]
    | cons x xs =>
      by_cases hxc : x = c
      · simp [dropLit, List.isPrefixOf, hxc, ih]
      · have : (c == x) = false := by
          simp [beq_iff_eq]; exact fun h => hxc h.symm
        simp [dropLit, List.isPrefixOf, hxc, this]

/-- C10: the element id handed to resolution equals, for every clicked
SVG group id, the result of removing a leading flowchart dash prefix and
keeping only the substring before the first dash; so a source id with a
hyphen reaches the matching logic truncated at its first hyphen. -/
theorem C10_extract_eq_spec (fullId : String) :
    extractNodeId fullId = specNodeId fullId := by
  unfold extractNodeId specNodeId jsStripFlowGroup
  rw [dropLit_eq]
  by_cases h : "flowchart-".data.isPrefixOf fullId.data
  · simp only [h, if_true]
    rw [splitOnChar_headD]
    norm_num
  · simp only [h, if_false, Bool.false_eq_true]
    rw [splitOnChar_headD]


lemma stateInv_init : stateInv initState := by
  refine ⟨Or.inl ⟨rfl, rfl⟩, ?_, ?_⟩ <;> simp [initState]

lemma reachable_stateInv {s : AppState} (h : Reachable s) : stateInv s := by
  induction h with
  | init => exact stateInv_init
  | @generate s pre expl mermaid details prompt hpre _ ih =>
    obtain ⟨hp, hv, hm⟩ := ih
    refine ⟨?_, ?_, ?_⟩
    · by_cases hz : mermaid = ""
      · simp only [applyGeneration, pairedConsistent, hz, if_pos rfl]
        rcases hp with ⟨h1, h2⟩ | hmem
        · exact Or.inl ⟨h1, h2⟩
        · exact Or.inr (List.mem_append_left _ hmem)
      · simp only [applyGeneration, pairedConsistent, if_neg hz]
        exact Or.inr (List.mem_append_right _ (List.mem_singleton.mpr rfl))
    · intro v hvv
      simp only [applyGeneration] at hvv
      by_cases hz : mermaid = ""
      · rw [if_pos hz] at hvv
        exact List.mem_append_left _ (hv v hvv)
      · rw [if_neg hz] at hvv
        rcases List.mem_append.mp hvv with h1 | h1
        · exact List.mem_append_left _ (hv v h1)
        · rw [List.mem_singleton.mp h1]
          exact List.mem_append_right _ (List.mem_singleton.mpr rfl)
    · intro m hmm c hcc
      simp only [applyGeneration] at hmm
      rcases List.mem_append.mp hmm with h1 | h1
      · rcases List.mem_append.mp h1 with h2 | h2
        · obtain ⟨d, hd, hg⟩ := hm m h2 c hcc
          exact ⟨d, hd, List.mem_append_left _ hg⟩
        · exact absurd hcc (by rw [hpre m h2]; simp)
      · rw [List.mem_singleton.mp h1] at hcc ⊢
        simp only at hcc
        obtain rfl : mermaid = c := by
          injection hcc
        exact ⟨details, rfl, List.mem_append_right _ (List.mem_singleton.mpr rfl)⟩
  | @sendFailed s pre hpre _ ih =>
    obtain ⟨hp, hv, hm⟩ := ih
    refine ⟨hp, hv, ?_⟩
    intro m hmm c hcc
    rcases List.mem_append.mp hmm with h1 | h1
    · exact hm m h1 c hcc
    · exact absurd hcc (by rw [hpre m h1]; simp)
  | @versionSelect s v hvv _ ih =>
    obtain ⟨hp, hv, hm⟩ := ih
    exact ⟨Or.inr (hv v hvv), hv, hm⟩
  | @viewDiagram s m c hmem hcode _ ih =>
    obtain ⟨hp, hv, hm⟩ := ih
    have hfind : ∃ mf, s.messages.find? (fun x => x.diagramCode == some c) = some mf := by
      have : (s.messages.find? (fun x => x.diagramCode == some c)).isSome := by
        rw [List.find?_isSome]
        exact ⟨m, hmem, by simp [hcode]⟩
      exact Option.isSome_iff_exists.mp this
    obtain ⟨mf, hmf⟩ := hfind
    have hmfc : mf.diagramCode = some c := by
      have := List.find?_some hmf
      simpa using this
    have hmfmem : mf ∈ s.messages := List.mem_of_find?_eq_some hmf
    obtain ⟨d, hd, hg⟩ := hm mf hmfmem c hmfc
    refine ⟨?_, hv, hm⟩
    simp only [applyViewDiagram, pairedConsistent, hmf, hd]
    exact Or.inr hg

/-- C8: in every reachable state of the orchestration layer, the active
node-detail list was generated in the same response as the active
diagram code (or the component is still in its initial empty state):
generation, history selection and view-diagram actions all install the
pair together. -/
theorem C8_paired_consistency (s : AppState) (h : Reachable s) :
    pairedConsistent s :=
  (reachable_stateInv h).1

/-- C8 witness: the pairing theorem applied to the concrete state after
one successful generation from the initial state. -/
theorem C8_paired_witness :
    pairedConsistent
      (applyGeneration initState [] "a layered design" "flowchart LR\nA"
        [c7record] "design a system") :=
  C8_paired_consistency _
    (Reachable.generate [] "a layered design" "flowchart LR\nA" [c7record]
      "design a system" (by simp) Reachable.init)


lemma take_isPre (l : List Char) (n : Nat) : l.take n <+: l :=
  ⟨l.drop n, List.take_append_drop n l⟩

lemma stripAfter_isPre (p : List Char → Bool) (k : Nat) (l : List Char) :
    stripAfter p k l <+: l := by
  unfold stripAfter
  split
  · exact take_isPre l _
  · exact List.prefix_refl l

lemma r4_isPre (l : List Char) : r4 l <+: l := by
  unfold r4
  split
  · exact take_isPre l _
  · exact List.prefix_refl l

lemma mapLine_isPre (l : List Char) : mapLine l <+: jsTrim l := by
  show (if startsWith2 '%' '%' (jsTrim l) = true then jsTrim l
    else r5 (r4 (r3 (r2 (r1 (jsTrim l)))))) <+: jsTrim l
  split
  · exact List.prefix_refl _
  · exact ((((stripAfter_isPre r5Match 0 _).trans (r4_isPre _)).trans
      (stripAfter_isPre r3Match 1 _)).trans
        (stripAfter_isPre r2Match 1 _)).trans
      (stripAfter_isPre arrowSuffix 0 _)

lemma dropWhile_head_not (p : Char → Bool) (l : List Char) (c : Char)
    (r : List Char) (h : l.dropWhile p = c :: r) : p c = false := by
  induction l with
  | nil => simp [List.dropWhile] at h
  | cons a t ih =>
    rw [List.dropWhile_cons] at h
    by_cases ha : p a
    · rw [if_pos ha] at h
      exact ih h
    · rw [if_neg ha] at h
      injection h with h1 _
      rw [h1] at ha
      simpa using ha

lemma jsTrim_head_not_ws (l : List Char) (c : Char) (r : List Char)
    (h : jsTrim l = c :: r) : isJsWs c = false := by
  have hpre : c :: r <+: (l.dropWhile isJsWs) := by
    rw [← h]
    exact List.rdropWhile_prefix isJsWs (l.dropWhile isJsWs)
  obtain ⟨t, ht⟩ := hpre
  exact dropWhile_head_not isJsWs l c (r ++ t) (by rw [← ht]; rfl)

lemma keptLines_head (code : List Char) (l : List Char)
    (h : l ∈ keptLines code) :
    ∃ c cs, l = c :: cs ∧ isJsWs c = false := by
  unfold keptLines at h
  have h1 := (List.mem_filter.mp h).1
  have h2 := List.mem_filter.mp h1
  obtain ⟨orig, _, horig⟩ := List.mem_map.mp h2.1
  have hne : ¬ l.isEmpty := by simpa using h2.2
  cases hl : l with
  | nil => rw [hl] at hne; simp at hne
  | cons c cs =>
    refine ⟨c, cs, rfl, ?_⟩
    have hpre : c :: cs <+: jsTrim orig := by
      rw [← hl, ← horig]
      exact mapLine_isPre orig
    obtain ⟨t, ht⟩ := hpre
    exact jsTrim_head_not_ws orig c (cs ++ t) (by rw [← ht]; rfl)

lemma joinNL_cons (l0 : List Char) (ls : List (List Char)) :
    ∃ u, joinNL (l0 :: ls) = l0 ++ u := by
  cases ls with
  | nil => exact ⟨[], by simp [joinNL]⟩
  | cons a b => exact ⟨'\n' :: joinNL (a :: b), rfl⟩

lemma cleanedJoin_shape (code : List Char) :
    joinNL (keptLines code) = [] ∨
      ∃ c cs, joinNL (keptLines code) = c :: cs ∧ isJsWs c = false := by
  cases hk : keptLines code with
  | nil => exact Or.inl rfl
  | cons l0 ls =>
    obtain ⟨c, cs, hc, hw⟩ :=
      keptLines_head code l0 (by rw [hk]; exact List.mem_cons_self l0 ls)
    obtain ⟨u, hu⟩ := joinNL_cons l0 ls
    exact Or.inr ⟨c, cs ++ u, by rw [hu, hc]; rfl, hw⟩


lemma dirGo_head (kw : List Char) (fuel : Nat) (c : Char) (cs : List Char)
    (h : isJsWs c = false) :
    ∃ d ds, dirGo kw (fuel + 1) (c :: cs) = d :: ds ∧ isJsWs d = false := by
  cases hm : dirMatch kw (c :: cs) with
  | some rest =>
    refine ⟨'f', ['l', 'o', 'w', 'c', 'h', 'a', 'r', 't', ' ', 'L', 'R'] ++
      dirGo kw fuel rest, ?_, by decide⟩
    simp [dirGo, hm, flowLR]
  | none =>
    refine ⟨c, dirGo kw fuel cs, ?_, h⟩
    simp [dirGo, hm]

lemma dirReplace_shape (kw : List Char) (l : List Char)
    (h : l = [] ∨ ∃ c cs, l = c :: cs ∧ isJsWs c = false) :
    dirReplace kw l = [] ∨
      ∃ c cs, dirReplace kw l = c :: cs ∧ isJsWs c = false := by
  rcases h with rfl | ⟨c, cs, rfl, hw⟩
  · exact Or.inl rfl
  · right
    have : (c :: cs).length + 1 = cs.length + 1 + 1 := by simp
    rw [dirReplace, this]
    exact dirGo_head kw (cs.length + 1) c cs hw

lemma startsWithList_isPre (p l : List Char) (h : startsWithList p l = true) :
    p <+: l := by
  rw [startsWithList, dropLit_eq] at h
  by_cases hp : p.isPrefixOf l
  · exact List.isPrefixOf_iff_prefix.mp hp
  · rw [if_neg hp] at h
    simp at h

lemma ensureFlowLR_flow (l : List Char)
    (h : l = [] ∨ ∃ c cs, l = c :: cs ∧ isJsWs c = false) :
    flowLR <+: ensureFlowLR l := by
  unfold ensureFlowLR
  split
  · next hs =>
    rcases h with rfl | ⟨c, cs, rfl, hw⟩
    · exact absurd hs (by decide)
    · have h1 : flowLR <+: jsTrim (c :: cs) := startsWithList_isPre _ _ hs
      have h2 : jsTrim (c :: cs) <+: c :: cs := by
        rw [jsTrim, List.dropWhile_cons, if_neg (by simp [hw])]
        exact List.rdropWhile_prefix isJsWs (c :: cs)
      exact h1.trans h2
  · exact ⟨'\n' :: stripLeadFlowDecl l, rfl⟩


lemma pairGo_skip (o1 o2 : Char) (closer : List Char) (pre : List Char)
    (hp : ∀ c ∈ pre, ¬ c = o1) :
    ∀ fuel t, pairGo o1 o2 closer (fuel + pre.length) (pre ++ t) =
      pre ++ pairGo o1 o2 closer fuel t := by
  induction pre with
  | nil => intro fuel t; simp
  | cons c pre' ih =>
    intro fuel t
    have hc : ¬ c = o1 := hp c (List.mem_cons_self c pre')
    have harith : fuel + (c :: pre').length = (fuel + pre'.length) + 1 := by
      simp [List.length_cons]
      omega
    rw [harith]
    show pairGo o1 o2 closer ((fuel + pre'.length) + 1) (c :: (pre' ++ t)) = _
    have hm : pairMatch o1 o2 closer (c :: (pre' ++ t)) = none := by
      simp [pairMatch, hc]
    simp only [pairGo, hm]
    rw [ih (fun x hx => hp x (List.mem_cons_of_mem c hx)) fuel t]
    rfl

lemma flowLR_no_bracket : ∀ c ∈ flowLR, ¬ c = '[' := by decide
lemma flowLR_no_paren : ∀ c ∈ flowLR, ¬ c = '(' := by decide
lemma flowLR_no_brace : ∀ c ∈ flowLR, ¬ c = '\x7b' := by decide

lemma slashPass_flow (t : List Char) :
    ∃ u, slashPass (flowLR ++ t) = flowLR ++ u := by
  refine ⟨pairGo '[' '/' ['/', ']'] (t.length + 1) t, ?_⟩
  rw [slashPass]
  have : (flowLR ++ t).length + 1 = (t.length + 1) + flowLR.length := by
    simp [flowLR]
  rw [this]
  exact pairGo_skip '[' '/' ['/', ']'] flowLR flowLR_no_bracket (t.length + 1) t

lemma stadiumPass_flow (t : List Char) :
    ∃ u, stadiumPass (flowLR ++ t) = flowLR ++ u := by
  refine ⟨pairGo '(' '[' [']', ')'] (t.length + 1) t, ?_⟩
  rw [stadiumPass]
  have : (flowLR ++ t).length + 1 = (t.length + 1) + flowLR.length := by
    simp [flowLR]
  rw [this]
  exact pairGo_skip '(' '[' [']', ')'] flowLR flowLR_no_paren (t.length + 1) t

lemma cylinderPass_flow (t : List Char) :
    ∃ u, cylinderPass (flowLR ++ t) = flowLR ++ u := by
  refine ⟨pairGo '[' '(' [')', ']'] (t.length + 1) t, ?_⟩
  rw [cylinderPass]
  have : (flowLR ++ t).length + 1 = (t.length + 1) + flowLR.length := by
    simp [flowLR]
  rw [this]
  exact pairGo_skip '[' '(' [')', ']'] flowLR flowLR_no_bracket (t.length + 1) t

lemma hexagonPass_flow (t : List Char) :
    ∃ u, hexagonPass (flowLR ++ t) = flowLR ++ u := by
  refine ⟨pairGo '\x7b' '\x7b' ['\x7d', '\x7d'] (t.length + 1) t, ?_⟩
  rw [hexagonPass]
  have : (flowLR ++ t).length + 1 = (t.length + 1) + flowLR.length := by
    simp [flowLR]
  rw [this]
  exact pairGo_skip '\x7b' '\x7b' ['\x7d', '\x7d'] flowLR flowLR_no_brace
    (t.length + 1) t


lemma sqGo_cons_none (fuel : Nat) (c : Char) (cs : List Char)
    (h : sqMatch (c :: cs) = none) :
    sqGo (fuel + 1) (c :: cs) = c :: sqGo fuel cs := by
  simp [sqGo, h]

lemma sqMatch_some_id (l idr content kt rest : List Char)
    (h : sqMatch l = some (idr, content, kt, rest)) :
    idr = l.takeWhile isIdChar := by
  simp only [sqMatch] at h
  split at h
  · exact absurd h (by simp)
  · split at h
    · split at h
      · cases h; rfl
      · exact absurd h (by simp)
    · exact absurd h (by simp)

lemma dropWhile_append_stop (p : Char → Bool) (A x : List Char) (a : Char)
    (r : List Char) (h : A.dropWhile p = a :: r) :
    (A ++ x).dropWhile p = a :: (r ++ x) := by
  induction A with
  | nil => simp [List.dropWhile] at h
  | cons b A' ih =>
    rw [List.dropWhile_cons] at h
    by_cases hb : p b
    · rw [if_pos hb] at h
      rw [List.cons_append, List.dropWhile_cons, if_pos hb]
      exact ih h
    · rw [if_neg hb] at h
      injection h with h1 h2
      subst h1
      rw [List.cons_append, List.dropWhile_cons, if_neg hb, ← h2]

lemma sqMatch_none_of_head (l : List Char)
    (h : (l.dropWhile isIdChar).head? ≠ some '[') : sqMatch l = none := by
  simp only [sqMatch]
  split
  · rfl
  · split
    · next heq =>
      exact absurd (by rw [heq]; rfl) h
    · rfl

lemma sqGo_skip_sp :
    ∀ (A : List Char), A.dropWhile isIdChar = [' '] →
      ∀ fuel (w : List Char),
        sqGo (fuel + A.length) (A ++ w) = A ++ sqGo fuel w := by
  intro A
  induction A with
  | nil => intro h; simp [List.dropWhile] at h
  | cons c A' ih =>
    intro h fuel w
    have hm : sqMatch (c :: A' ++ w) = none := by
      apply sqMatch_none_of_head
      rw [dropWhile_append_stop isIdChar (c :: A') w ' ' [] h]
      simp
    have harith : fuel + (c :: A').length = (fuel + A'.length) + 1 := by
      simp [List.length_cons]
      omega
    rw [harith]
    rw [List.cons_append, sqGo_cons_none (fuel + A'.length) c (A' ++ w)
      (by rw [← List.cons_append]; exact hm)]
    rw [List.dropWhile_cons] at h
    by_cases hc : isIdChar c
    · rw [if_pos hc] at h
      rw [ih h fuel w]
      rfl
    · rw [if_neg hc] at h
      injection h with h1 h2
      subst h2
      simp

lemma takeWhile_id_cons_LR (t : List Char) :
    List.takeWhile isIdChar ('L' :: 'R' :: t) =
      'L' :: 'R' :: List.takeWhile isIdChar t := by
  rw [List.takeWhile_cons, if_pos (by decide), List.takeWhile_cons,
    if_pos (by decide)]

lemma takeWhile_id_cons_R (t : List Char) :
    List.takeWhile isIdChar ('R' :: t) =
      'R' :: List.takeWhile isIdChar t := by
  rw [List.takeWhile_cons, if_pos (by decide)]

lemma sqGo_cons_some (fuel : Nat) (c : Char) (cs idr content kt rest : List Char)
    (h : sqMatch (c :: cs) = some (idr, content, kt, rest)) :
    sqGo (fuel + 1) (c :: cs) =
      (if sqKeywords.contains (toLowerList idr)
       then idr ++ '[' :: kt
       else idr ++ '[' :: (normalizeLabel content ++ [']'])) ++
        sqGo fuel rest := by
  simp [sqGo, h]

lemma sqGo_LR (fuel : Nat) (t : List Char) :
    ∃ u, sqGo (fuel + 2) ('L' :: 'R' :: t) = 'L' :: 'R' :: u := by
  cases hm : sqMatch ('L' :: 'R' :: t) with
  | some q =>
    obtain ⟨idr, content, kt, rest⟩ := q
    have hid := sqMatch_some_id _ _ _ _ _ hm
    rw [takeWhile_id_cons_LR] at hid
    rw [sqGo_cons_some (fuel + 1) 'L' ('R' :: t) idr content kt rest hm]
    subst hid
    split
    · exact ⟨List.takeWhile isIdChar t ++ '[' :: kt ++ sqGo (fuel + 1) rest,
        by simp⟩
    · exact ⟨List.takeWhile isIdChar t ++
        '[' :: (normalizeLabel content ++ [']']) ++ sqGo (fuel + 1) rest,
        by simp⟩
  | none =>
    rw [sqGo_cons_none (fuel + 1) 'L' ('R' :: t) hm]
    cases hm2 : sqMatch ('R' :: t) with
    | some q =>
      obtain ⟨idr, content, kt, rest⟩ := q
      have hid := sqMatch_some_id _ _ _ _ _ hm2
      rw [takeWhile_id_cons_R] at hid
      rw [sqGo_cons_some fuel 'R' t idr content kt rest hm2]
      subst hid
      split
      · exact ⟨List.takeWhile isIdChar t ++ '[' :: kt ++ sqGo fuel rest,
          by simp⟩
      · exact ⟨List.takeWhile isIdChar t ++
          '[' :: (normalizeLabel content ++ [']']) ++ sqGo fuel rest, by simp⟩
    | none =>
      rw [sqGo_cons_none fuel 'R' t hm2]
      exact ⟨sqGo fuel t, rfl⟩

lemma sqPass_flow (t : List Char) :
    ∃ u, sqPass (flowLR ++ t) = flowLR ++ u := by
  have hA : ("flowchart ".data).dropWhile isIdChar = [' '] := by decide
  have harith : (flowLR ++ t).length + 1 =
      ((t.length + 3) + ("flowchart ".data).length) := by
    simp [flowLR, show ("flowchart ".data).length = 10 from rfl]
  have hsplit : flowLR ++ t = "flowchart ".data ++ ('L' :: 'R' :: t) := rfl
  rw [sqPass, harith, hsplit,
    sqGo_skip_sp "flowchart ".data hA (t.length + 3) ('L' :: 'R' :: t)]
  obtain ⟨u, hu⟩ := sqGo_LR (t.length + 1) t
  refine ⟨u, ?_⟩
  rw [hu]
  rfl


lemma cleanCore_flow (code : List Char) : flowLR <+: cleanCore code := by
  show flowLR <+:
    sqPass (hexagonPass (cylinderPass (stadiumPass (slashPass (ensureFlowLR
      (dirReplace litFlowchart (dirReplace litGraph (joinNL (keptLines code)))))))))
  have h0 := cleanedJoin_shape code
  have h1 := dirReplace_shape litGraph _ h0
  have h2 := dirReplace_shape litFlowchart _ h1
  obtain ⟨t, ht⟩ := ensureFlowLR_flow _ h2
  rw [← ht]
  obtain ⟨u1, hu1⟩ := slashPass_flow t
  rw [hu1]
  obtain ⟨u2, hu2⟩ := stadiumPass_flow u1
  rw [hu2]
  obtain ⟨u3, hu3⟩ := cylinderPass_flow u2
  rw [hu3]
  obtain ⟨u4, hu4⟩ := hexagonPass_flow u3
  rw [hu4]
  obtain ⟨u5, hu5⟩ := sqPass_flow u4
  rw [hu5]
  exact List.prefix_append flowLR u5

/-- C3 amended: for every input, the normalized output begins with the
text flowchart LR as its first characters; the claimed uniqueness of the
declaration fails (see the counterexample), only this canonical-start
half holds. -/
theorem C3_amended_canonical_first (code : String) :
    flowLR <+: (cleanMermaidCode code).data :=
  cleanCore_flow code.data

/-- C9: the resolver is total, always returning either no record or a
record of the given list, and the normalizer is total, returning for
every input string a best-effort cleaned string that always begins with
the canonical direction declaration. -/
theorem C9_total_absorbing :
    (∀ (nodeId label : String) (records : List NodeDetail),
        resolveNode nodeId label records = none ∨
          ∃ d ∈ records, resolveNode nodeId label records = some d) ∧
      ∀ code : String, flowLR <+: (cleanMermaidCode code).data := by
  constructor
  · intro n l rs
    cases h : resolveNode n l rs with
    | none => exact Or.inl rfl
    | some d =>
      have h2 : (rs.find?
          (nodeMatches (cleanStr n) (cleanStr l))) = some d := h
      exact Or.inr ⟨d, List.mem_of_find?_eq_some h2, rfl⟩
  · intro code
    exact cleanCore_flow code.data

end Archy
